import Mathlib

/-!
# Verification of the ai-cz CLI core (src/index.ts)

A shallow embedding of the `EncryptedTokenManager` secret store and the
`AICommitGenerator` suggestion pipeline of the ai-cz repository, together
with proofs about them.

Modelling conventions:
* JavaScript byte buffers are `List Nat` with every entry `< 256`;
  JavaScript strings that the crypto layer manipulates character by
  character (the envelope) are `List Char`.
* The AES-256 block transformation provided by Node's `crypto` module is a
  parameter `encB / decB : List Nat → List Nat → List Nat` (key, block);
  CBC chaining, PKCS#7 padding, hex encoding and the envelope format — the
  parts the repository composes — are modelled concretely.
* `Buffer.from(s, "hex")` decodes hex pairs up to the first invalid
  character and drops a trailing incomplete pair (documented Node
  behaviour); `nodeHexDecode` reproduces this.
* Thrown exceptions become `Except String`; `try/catch` becomes a `match`
  on the `Except` value.
-/

/-- A valid cipher block: 16 bytes, each below 256. -/
def ValidBlock (b : List Nat) : Prop := b.length = 16 ∧ ∀ x ∈ b, x < 256

/-- A keyed block transformation that maps valid blocks to valid blocks
(as the AES-256 forward and inverse permutations do). -/
def BlockMapValid (f : List Nat → List Nat) : Prop :=
  ∀ b, ValidBlock b → ValidBlock (f b)

/-- `g` inverts `f` on valid blocks (AES decryption inverts encryption). -/
def BlockInverse (f g : List Nat → List Nat) : Prop :=
  ∀ b, ValidBlock b → g (f b) = b

/-- Lower-case hex digit for a nibble, as Node's `toString("hex")` emits. -/
def hexDigit (n : Nat) : Char :=
  if n < 10 then Char.ofNat (48 + n) else Char.ofNat (87 + n)

/-- `Buffer.toString("hex")`: two lower-case hex digits per byte. -/
def hexEncode (bytes : List Nat) : List Char :=
  bytes.flatMap (fun b => [hexDigit (b / 16), hexDigit (b % 16)])

/-- Value of a hex digit character, accepting both cases (as Node does). -/
def hexVal (c : Char) : Option Nat :=
  if 48 ≤ c.toNat ∧ c.toNat ≤ 57 then some (c.toNat - 48)
  else if 97 ≤ c.toNat ∧ c.toNat ≤ 102 then some (c.toNat - 87)
  else if 65 ≤ c.toNat ∧ c.toNat ≤ 70 then some (c.toNat - 55)
  else none

/-- `Buffer.from(s, "hex")`: decode pairs of hex digits, stopping at the
first invalid character; a trailing lone digit is dropped. -/
def nodeHexDecode : List Char → List Nat
  | c1 :: c2 :: rest =>
    match hexVal c1, hexVal c2 with
    | some h, some l => (16 * h + l) :: nodeHexDecode rest
    | _, _ => []
  | _ => []

/-- JavaScript `String.prototype.split` with a one-character separator. -/
def splitChars (sep : Char) : List Char → List (List Char)
  | [] => [[]]
  | c :: rest =>
    if c = sep then [] :: splitChars sep rest
    else
      match splitChars sep rest with
      | [] => [[c]]
      | g :: gs => (c :: g) :: gs

/-- PKCS#7 padding to the 16-byte AES block size, as OpenSSL applies on
`cipher.final`: always appends between 1 and 16 bytes. -/
def pkcs7Pad (data : List Nat) : List Nat :=
  let padLen := 16 - data.length % 16
  data ++ List.replicate padLen padLen

/-- PKCS#7 unpadding with OpenSSL's full validity check on
`decipher.final`: the last byte `n` must be in `1..16` and the last `n`
bytes must all equal `n`, otherwise decryption throws `bad decrypt`. -/
def pkcs7Unpad (data : List Nat) : Except String (List Nat) :=
  match data.getLast? with
  | none => .error "bad decrypt"
  | some n =>
    if n = 0 ∨ 16 < n ∨ data.length < n then .error "bad decrypt"
    else if (data.drop (data.length - n)).all (· = n) then
      .ok (data.take (data.length - n))
    else .error "bad decrypt"

/-- Split a byte list into 16-byte blocks. -/
def chunk16 (l : List Nat) : List (List Nat) :=
  if l = [] then [] else l.take 16 :: chunk16 (l.drop 16)
termination_by l.length
decreasing_by
  simp only [List.length_drop]
  have : l.length ≠ 0 := by simpa [List.length_eq_zero] using by assumption
  omega

/-- CBC-mode encryption: each plaintext block is XORed with the previous
ciphertext block (the IV for the first) before the block cipher. -/
def cbcEncrypt (enc : List Nat → List Nat) (prev : List Nat) :
    List (List Nat) → List (List Nat)
  | [] => []
  | b :: bs =>
    let c := enc (List.zipWith (fun x y => x ^^^ y) b prev)
    c :: cbcEncrypt enc c bs

/-- CBC-mode decryption, inverse chaining of `cbcEncrypt`. -/
def cbcDecrypt (dec : List Nat → List Nat) (prev : List Nat) :
    List (List Nat) → List (List Nat)
  | [] => []
  | c :: cs =>
    List.zipWith (fun x y => x ^^^ y) (dec c) prev :: cbcDecrypt dec c cs

/-- The raw key bytes the cipher is given: `Buffer.from(encryptionKey, "hex")`
applied to the stored 64-character hex digest. -/
def cipherKey (encryptionKey : List Char) : List Nat :=
  nodeHexDecode encryptionKey

/-- `EncryptedTokenManager.encrypt`: draw an IV (passed here as the
`iv` argument, the result of `randomBytes(16)`), run AES-256-CBC with
PKCS#7 padding over the UTF-8 bytes of the token, and produce the
envelope `hex(iv) ++ ":" ++ hex(ciphertext)`. -/
def encrypt (encB : List Nat → List Nat → List Nat)
    (encryptionKey : List Char) (iv text : List Nat) : List Char :=
  let key := cipherKey encryptionKey
  let ct := (cbcEncrypt (encB key) iv (chunk16 (pkcs7Pad text))).flatten
  hexEncode iv ++ ':' :: hexEncode ct

/-- `EncryptedTokenManager.decrypt`: split on `":"`, require exactly two
parts, hex-decode leniently, validate key and IV lengths as
`createDecipheriv` does, require the ciphertext to be a non-zero multiple
of the block size as `decipher.final` does, then CBC-decrypt and unpad. -/
def decrypt (decB : List Nat → List Nat → List Nat)
    (encryptionKey : List Char) (encryptedText : List Char) :
    Except String (List Nat) :=
  match splitChars ':' encryptedText with
  | [p0, p1] =>
    let iv := nodeHexDecode p0
    let key := cipherKey encryptionKey
    if key.length ≠ 32 then .error "Invalid key length"
    else if iv.length ≠ 16 then .error "Invalid initialization vector"
    else
      let ct := nodeHexDecode p1
      if ct = [] ∨ ct.length % 16 ≠ 0 then .error "wrong final block length"
      else pkcs7Unpad (cbcDecrypt (decB key) iv (chunk16 ct)).flatten
  | _ => .error "Invalid encrypted data format"

/-- State of the token file `~/.ai-cz/token.enc` as `getToken` observes
it: absent, present but unreadable (`readFileSync` throws), or readable
with the given contents. -/
inductive FileState where
  | absent : FileState
  | unreadable : FileState
  | contains (data : List Char) : FileState

/-- `EncryptedTokenManager.getToken`: absent file yields `null`; any
exception from reading or decrypting is caught and yields `null`; a
decrypted empty string is coerced to `null` by `return token || null`. -/
def getToken (decB : List Nat → List Nat → List Nat)
    (encryptionKey : List Char) (fs : FileState) : Option (List Nat) :=
  match fs with
  | .absent => none
  | .unreadable => none
  | .contains data =>
    match decrypt decB encryptionKey data with
    | .error _ => none
    | .ok token => if token = [] then none else some token

/-- `EncryptedTokenManager.setToken`: the file contents after a
successful save — the envelope produced by `encrypt`. -/
def setTokenFile (encB : List Nat → List Nat → List Nat)
    (encryptionKey : List Char) (iv token : List Nat) : FileState :=
  .contains (encrypt encB encryptionKey iv token)

/-- `EncryptedTokenManager.hasToken`: `getToken() !== null`. -/
def hasToken (decB : List Nat → List Nat → List Nat)
    (encryptionKey : List Char) (fs : FileState) : Bool :=
  (getToken decB encryptionKey fs).isSome

/-! ## SHA-256 (the `createHash("sha256")` primitive used for key derivation)

A concrete implementation of FIPS 180-4 SHA-256 over byte lists, 32-bit
words represented as `Nat` reduced modulo `2^32`. -/

/-- Right rotation of a 32-bit word. -/
def rotr32 (n w : Nat) : Nat := ((w >>> n) ||| (w <<< (32 - n))) % 4294967296

/-- SHA-256 Σ₀. -/
def bigSigma0 (x : Nat) : Nat := rotr32 2 x ^^^ rotr32 13 x ^^^ rotr32 22 x

/-- SHA-256 Σ₁. -/
def bigSigma1 (x : Nat) : Nat := rotr32 6 x ^^^ rotr32 11 x ^^^ rotr32 25 x

/-- SHA-256 σ₀. -/
def smallSigma0 (x : Nat) : Nat := rotr32 7 x ^^^ rotr32 18 x ^^^ (x >>> 3)

/-- SHA-256 σ₁. -/
def smallSigma1 (x : Nat) : Nat := rotr32 17 x ^^^ rotr32 19 x ^^^ (x >>> 10)

/-- SHA-256 Ch; complement realised as XOR with the 32-bit mask. -/
def chFn (x y z : Nat) : Nat := (x &&& y) ^^^ ((x ^^^ 4294967295) &&& z)

/-- SHA-256 Maj. -/
def majFn (x y z : Nat) : Nat := (x &&& y) ^^^ (x &&& z) ^^^ (y &&& z)

/-- The 64 SHA-256 round constants. -/
def sha256K : List Nat :=
  [1116352408, 1899447441, 3049323471, 3921009573, 961987163,
   1508970993, 2453635748, 2870763221, 3624381080, 310598401,
   607225278, 1426881987, 1925078388, 2162078206, 2614888103,
   3248222580, 3835390401, 4022224774, 264347078, 604807628,
   770255983, 1249150122, 1555081692, 1996064986, 2554220882,
   2821834349, 2952996808, 3210313671, 3336571891, 3584528711,
   113926993, 338241895, 666307205, 773529912, 1294757372,
   1396182291, 1695183700, 1986661051, 2177026350, 2456956037,
   2730485921, 2820302411, 3259730800, 3345764771, 3516065817,
   3600352804, 4094571909, 275423344, 430227734, 506948616,
   659060556, 883997877, 958139571, 1322822218, 1537002063,
   1747873779, 1955562222, 2024104815, 2227730452, 2361852424,
   2428436474, 2756734187, 3204031479, 3329325298]

/-- The eight SHA-256 working variables. -/
structure Sha256State where
  a : Nat
  b : Nat
  c : Nat
  d : Nat
  e : Nat
  f : Nat
  g : Nat
  h : Nat

/-- The SHA-256 initial hash value. -/
def sha256Init : Sha256State :=
  ⟨1779033703, 3144134277, 1013904242, 2773480762,
   1359893119, 2600822924, 528734635, 1541459225⟩

/-- Extend a message-schedule word list by `k` further words. -/
def extendW (ws : List Nat) : Nat → List Nat
  | 0 => ws
  | k + 1 =>
    let n := ws.length
    let w := (smallSigma1 (ws.getD (n - 2) 0) + ws.getD (n - 7) 0 +
              smallSigma0 (ws.getD (n - 15) 0) + ws.getD (n - 16) 0) % 4294967296
    extendW (ws ++ [w]) k

/-- Split a list into chunks of `n + 1` elements (the successor argument
makes termination structural on the chunk size being positive). -/
def chunksOf (n : Nat) (l : List Nat) : List (List Nat) :=
  if l = [] then [] else l.take (n + 1) :: chunksOf n (l.drop (n + 1))
termination_by l.length
decreasing_by
  simp only [List.length_drop]
  have : l.length ≠ 0 := by simpa [List.length_eq_zero] using by assumption
  omega

/-- Big-endian 32-bit words from a 64-byte block. -/
def bytesToWords (block : List Nat) : List Nat :=
  (chunksOf 3 block).map (fun c => c.foldl (fun acc x => acc * 256 + x) 0)

/-- One SHA-256 round for a `(constant, schedule-word)` pair. -/
def sha256Round (s : Sha256State) (kw : Nat × Nat) : Sha256State :=
  let t1 := (s.h + bigSigma1 s.e + chFn s.e s.f s.g + kw.1 + kw.2) % 4294967296
  let t2 := (bigSigma0 s.a + majFn s.a s.b s.c) % 4294967296
  ⟨(t1 + t2) % 4294967296, s.a, s.b, s.c, (s.d + t1) % 4294967296, s.e, s.f, s.g⟩

/-- Compress one 64-byte block into the running state. -/
def sha256Compress (s : Sha256State) (block : List Nat) : Sha256State :=
  let ws := extendW (bytesToWords block) 48
  let r := (sha256K.zip ws).foldl sha256Round s
  ⟨(s.a + r.a) % 4294967296, (s.b + r.b) % 4294967296,
   (s.c + r.c) % 4294967296, (s.d + r.d) % 4294967296,
   (s.e + r.e) % 4294967296, (s.f + r.f) % 4294967296,
   (s.g + r.g) % 4294967296, (s.h + r.h) % 4294967296⟩

/-- Big-endian 64-bit length field of the SHA-256 padding. -/
def be64 (n : Nat) : List Nat :=
  [(n >>> 56) % 256, (n >>> 48) % 256, (n >>> 40) % 256, (n >>> 32) % 256,
   (n >>> 24) % 256, (n >>> 16) % 256, (n >>> 8) % 256, n % 256]

/-- SHA-256 message padding: `0x80`, zeros, then the bit length, to a
multiple of 64 bytes. -/
def sha256Pad (msg : List Nat) : List Nat :=
  msg ++ 128 :: (List.replicate ((119 - msg.length % 64) % 64) 0 ++ be64 (8 * msg.length))

/-- Big-endian bytes of a 32-bit word. -/
def word32Bytes (w : Nat) : List Nat :=
  [(w >>> 24) % 256, (w >>> 16) % 256, (w >>> 8) % 256, w % 256]

/-- SHA-256 of a byte list: a 32-byte digest. -/
def sha256 (msg : List Nat) : List Nat :=
  let s := (chunksOf 63 (sha256Pad msg)).foldl sha256Compress sha256Init
  word32Bytes s.a ++ word32Bytes s.b ++ word32Bytes s.c ++ word32Bytes s.d ++
  word32Bytes s.e ++ word32Bytes s.f ++ word32Bytes s.g ++ word32Bytes s.h

/-- UTF-8 bytes of a string, as Node's `hash.update(string)` consumes it. -/
def utf8Bytes (s : String) : List Nat :=
  (s.data.flatMap String.utf8EncodeChar).map (fun b => b.toNat)

/-- `EncryptedTokenManager.generateEncryptionKey`: the hex digest of
SHA-256 over `process.platform + process.arch + homedir()`. -/
def generateEncryptionKey (platform arch home : String) : List Char :=
  hexEncode (sha256 (utf8Bytes (platform ++ arch ++ home)))

/-! ## Suggestion pipeline (`AICommitGenerator`) -/

/-- A parsed JSON value, the codomain of `JSON.parse`. -/
inductive JsonVal where
  | null : JsonVal
  | bool (b : Bool) : JsonVal
  | num (n : Int) : JsonVal
  | str (s : String) : JsonVal
  | arr (elems : List JsonVal) : JsonVal
  | obj (fields : List (String × JsonVal)) : JsonVal

/-- JavaScript truthiness of a parsed JSON value. -/
def jsTruthy : JsonVal → Bool
  | .null => false
  | .bool b => b
  | .num n => n != 0
  | .str s => s != ""
  | .arr _ => true
  | .obj _ => true

/-- JavaScript property access `j.k` on a parsed JSON value other than
`null`: a field of an object, `undefined` (`none`) otherwise. -/
def jsGetField (j : JsonVal) (k : String) : Option JsonVal :=
  match j with
  | .obj fields => fields.lookup k
  | _ => none

/-- The JavaScript expression `v || []`: the value when present and
truthy, the empty array otherwise. -/
def jsOrEmptyList (v : Option JsonVal) : JsonVal :=
  match v with
  | some j => if jsTruthy j then j else .arr []
  | none => .arr []

/-- The record returned by `generateCommitSuggestions`; the fields hold
whatever JSON values the unvalidated accesses produced. -/
structure SuggestionSet where
  suggestedTypes : JsonVal
  suggestedScopes : JsonVal
  commitMessages : JsonVal

/-- The fixed fallback suggestion set of the `catch` branch. -/
def fallbackSuggestions : SuggestionSet :=
  ⟨.arr [.str "feat", .str "fix", .str "chore"],
   .arr [],
   .arr [.str "update code", .str "improve functionality"]⟩

/-- `AICommitGenerator.generateCommitSuggestions`, parametrised by the
external pieces: `parseJson` models `JSON.parse` (an exception becomes
`.error`), and `serviceResponse` models the completed OpenAI call —
`.error` for a rejected request, `.ok none` for a response with no
`content`, `.ok (some c)` for content `c`. `!content` also rejects the
empty string; property access on a parsed `null` throws a `TypeError`;
every exception is caught by the surrounding `try` and yields the
fallback set. -/
def generateCommitSuggestions (parseJson : String → Except String JsonVal)
    (serviceResponse : Except String (Option String)) : SuggestionSet :=
  match serviceResponse with
  | .error _ => fallbackSuggestions
  | .ok none => fallbackSuggestions
  | .ok (some content) =>
    if content = "" then fallbackSuggestions
    else
      match parseJson content with
      | .error _ => fallbackSuggestions
      | .ok .null => fallbackSuggestions
      | .ok parsed =>
        ⟨jsOrEmptyList (jsGetField parsed "types"),
         jsOrEmptyList (jsGetField parsed "scopes"),
         jsOrEmptyList (jsGetField parsed "messages")⟩

/-! ## Commit-type catalog and formatting -/

/-- One entry of the fixed commit-type catalog. -/
structure CommitType where
  type : String
  description : String
  emoji : String

/-- The fixed `COMMIT_TYPES` catalog. -/
def COMMIT_TYPES : List CommitType :=
  [⟨"feat", "A new feature", "✨"⟩,
   ⟨"fix", "A bug fix", "🐛"⟩,
   ⟨"docs", "Documentation only changes", "📚"⟩,
   ⟨"style", "Changes that do not affect the meaning of the code", "💎"⟩,
   ⟨"refactor", "A code change that neither fixes a bug nor adds a feature", "♻️"⟩,
   ⟨"perf", "A code change that improves performance", "⚡"⟩,
   ⟨"test", "Adding missing tests or correcting existing tests", "🧪"⟩,
   ⟨"build", "Changes that affect the build system or external dependencies", "🏗️"⟩,
   ⟨"ci", "Changes to CI configuration files and scripts", "👷"⟩,
   ⟨"chore", "Other changes that don't modify src or test files", "🔧"⟩,
   ⟨"revert", "Reverts a previous commit", "⏪"⟩]

/-- `AICommitGenerator.formatCommitMessage`: emoji looked up in the
catalog (`""` when the type is unknown), scope wrapped in parentheses
when truthy (non-empty). -/
def formatCommitMessage (type scope message : String) : String :=
  let commitType := COMMIT_TYPES.find? (fun t => t.type == type)
  let emoji := ((commitType.map (fun t => t.emoji)).getD "")
  let scopeStr := if scope ≠ "" then "(" ++ scope ++ ")" else ""
  type ++ scopeStr ++ ": " ++ emoji ++ " " ++ message

/-! ## Commit workflow (`getGitDiff` / `generateCommit`) -/

/-- The externally observable steps of one `generateCommit` run that the
empty-diff claim speaks about. -/
inductive WorkflowEvent where
  | suggestInvoked : WorkflowEvent
  | commitInvoked : WorkflowEvent
  | exited (code : Nat) : WorkflowEvent
deriving DecidableEq

/-- JavaScript `String.prototype.trim`: drop whitespace from both ends
(diff texts are `List Char` here, like the envelope). -/
def jsTrim (s : List Char) : List Char :=
  ((s.dropWhile Char.isWhitespace).reverse.dropWhile Char.isWhitespace).reverse

/-- `AICommitGenerator.getGitDiff` on a successful pair of `git diff`
invocations: use the staged diff, fall back to the unstaged diff when the
staged one is blank, and `process.exit(0)` (modelled as `.error 0`, which
bypasses every `catch`) when that is blank too. -/
def getGitDiff (staged unstaged : List Char) : Except Nat (List Char) :=
  let diff := if jsTrim staged = [] then unstaged else staged
  if jsTrim diff = [] then .error 0 else .ok diff

/-- The event trace of `AICommitGenerator.generateCommit`: obtain the
diff (exiting on a blank one), invoke the suggestion pipeline, resolve
the selections interactively (pure data flow, no observable event), and
run the commit step only when the user confirms. -/
def generateCommit (staged unstaged : List Char) (confirm : Bool) :
    List WorkflowEvent :=
  match getGitDiff staged unstaged with
  | .error code => [.exited code]
  | .ok _ => .suggestInvoked :: (if confirm then [.commitInvoked] else [])

/-- The emoji the fixed catalog associates to a commit type, the empty
string for a type not in the catalog (the spec's description of the
lookup `formatCommitMessage` performs). -/
def emojiFor (type : String) : String :=
  ((COMMIT_TYPES.find? (fun t => t.type == type)).map (fun t => t.emoji)).getD ""

/-- Whether a parsed JSON value is a string. -/
def isStringVal : JsonVal → Bool
  | .str _ => true
  | _ => false

/-- A concrete envelope whose first field is not a hex string: 32 valid
hex characters followed by `"zz"`, then a colon and a valid one-block
ciphertext field. -/
def garbageEnvelope : List Char :=
  (hexEncode (List.replicate 16 0) ++ ['z', 'z']) ++
    ':' :: hexEncode (List.replicate 16 16)

/-! ## Helper lemmas: hex encoding -/

theorem word32Bytes_bounds (w : Nat) : ∀ x ∈ word32Bytes w, x < 256 := by
  intro x hx
  simp only [word32Bytes, List.mem_cons, List.not_mem_nil, or_false] at hx
  rcases hx with rfl | rfl | rfl | rfl <;> omega

theorem sha256_length (msg : List Nat) : (sha256 msg).length = 32 := by
  rw [sha256]
  simp [word32Bytes]

theorem sha256_bounds (msg : List Nat) : ∀ x ∈ sha256 msg, x < 256 := by
  intro x hx
  rw [sha256] at hx
  simp only [List.mem_append] at hx
  rcases hx with ((((((h | h) | h) | h) | h) | h) | h) | h <;>
    exact word32Bytes_bounds _ x h

theorem utf8Bytes_bounds (s : String) : ∀ x ∈ utf8Bytes s, x < 256 := by
  intro x hx
  simp only [utf8Bytes, List.mem_map] at hx
  obtain ⟨b, -, rfl⟩ := hx
  exact b.toNat_lt


theorem hexVal_hexDigit : ∀ n < 16, hexVal (hexDigit n) = some n := by decide

theorem hexDigit_ne_colon : ∀ n < 16, hexDigit n ≠ ':' := by decide

theorem hexEncode_cons (b : Nat) (rest : List Nat) :
    hexEncode (b :: rest) = hexDigit (b / 16) :: hexDigit (b % 16) :: hexEncode rest := rfl

theorem nodeHexDecode_hexEncode (bs : List Nat) (hb : ∀ x ∈ bs, x < 256) :
    nodeHexDecode (hexEncode bs) = bs := by
  induction bs with
  | nil => rfl
  | cons b rest ih =>
    have hb256 : b < 256 := hb b (by simp)
    have hdiv : b / 16 < 16 := Nat.div_lt_of_lt_mul (by omega)
    have hmod : b % 16 < 16 := Nat.mod_lt _ (by omega)
    rw [hexEncode_cons]
    simp only [nodeHexDecode, hexVal_hexDigit _ hdiv, hexVal_hexDigit _ hmod]
    rw [ih (fun x hx => hb x (by simp [hx]))]
    congr 1
    omega

theorem nodeHexDecode_hexEncode_append (bs : List Nat) (hb : ∀ x ∈ bs, x < 256)
    (rest : List Char) :
    nodeHexDecode (hexEncode bs ++ rest) = bs ++ nodeHexDecode rest := by
  induction bs with
  | nil => rfl
  | cons b bs ih =>
    have hb256 : b < 256 := hb b (by simp)
    have hdiv : b / 16 < 16 := Nat.div_lt_of_lt_mul (by omega)
    have hmod : b % 16 < 16 := Nat.mod_lt _ (by omega)
    rw [hexEncode_cons]
    simp only [List.cons_append, nodeHexDecode,
      hexVal_hexDigit _ hdiv, hexVal_hexDigit _ hmod]
    rw [show (hexEncode bs).append rest = hexEncode bs ++ rest from rfl,
      ih (fun x hx => hb x (by simp [hx]))]
    simp only [List.cons_append, List.cons.injEq, and_true]
    omega

theorem cipherKey_generateEncryptionKey (platform arch home : String) :
    cipherKey (generateEncryptionKey platform arch home) =
      sha256 (utf8Bytes (platform ++ arch ++ home)) :=
  nodeHexDecode_hexEncode _ (sha256_bounds _)

theorem cipherKey_generateEncryptionKey_length (platform arch home : String) :
    (cipherKey (generateEncryptionKey platform arch home)).length = 32 := by
  rw [cipherKey_generateEncryptionKey, sha256_length]

theorem hexEncode_length (bs : List Nat) : (hexEncode bs).length = 2 * bs.length := by
  induction bs with
  | nil => rfl
  | cons b rest ih => simp [hexEncode, List.flatMap_cons] at ih ⊢; omega

theorem colon_not_mem_hexEncode (bs : List Nat) (hb : ∀ x ∈ bs, x < 256) :
    ':' ∉ hexEncode bs := by
  intro hmem
  simp only [hexEncode, List.mem_flatMap] at hmem
  obtain ⟨b, hbmem, hc⟩ := hmem
  have hb256 : b < 256 := hb b hbmem
  have hdiv : b / 16 < 16 := Nat.div_lt_of_lt_mul (by omega)
  have hmod : b % 16 < 16 := Nat.mod_lt _ (by omega)
  simp only [List.mem_cons, List.not_mem_nil, or_false] at hc
  rcases hc with hc | hc
  · exact hexDigit_ne_colon _ hdiv hc.symm
  · exact hexDigit_ne_colon _ hmod hc.symm

theorem hexEncode_all_hex (bs : List Nat) (hb : ∀ x ∈ bs, x < 256) :
    ∀ c ∈ hexEncode bs, (hexVal c).isSome := by
  intro c hmem
  simp only [hexEncode, List.mem_flatMap] at hmem
  obtain ⟨b, hbmem, hc⟩ := hmem
  have hb256 : b < 256 := hb b hbmem
  have hdiv : b / 16 < 16 := Nat.div_lt_of_lt_mul (by omega)
  have hmod : b % 16 < 16 := Nat.mod_lt _ (by omega)
  simp only [List.mem_cons, List.not_mem_nil, or_false] at hc
  rcases hc with hc | hc
  · rw [hc, hexVal_hexDigit _ hdiv]; rfl
  · rw [hc, hexVal_hexDigit _ hmod]; rfl

/-! ## Helper lemmas: `splitChars` -/

theorem splitChars_no_sep (sep : Char) (s : List Char) (hs : sep ∉ s) :
    splitChars sep s = [s] := by
  induction s with
  | nil => rfl
  | cons c rest ih =>
    have hc : c ≠ sep := fun h => hs (by simp [h])
    have hrest : sep ∉ rest := fun h => hs (by simp [h])
    simp only [splitChars, if_neg hc, ih hrest]

theorem splitChars_single (sep : Char) (a b : List Char)
    (ha : sep ∉ a) (hb : sep ∉ b) :
    splitChars sep (a ++ sep :: b) = [a, b] := by
  induction a with
  | nil => simp [splitChars, splitChars_no_sep sep b hb]
  | cons c rest ih =>
    have hc : c ≠ sep := fun h => ha (by simp [h])
    have hrest : sep ∉ rest := fun h => ha (by simp [h])
    simp only [List.cons_append, splitChars, if_neg hc]
    rw [show rest.append (sep :: b) = rest ++ sep :: b from rfl, ih hrest]

/-! ## Helper lemmas: PKCS#7 padding -/

theorem pkcs7Pad_length (d : List Nat) :
    (pkcs7Pad d).length = d.length + (16 - d.length % 16) := by
  simp [pkcs7Pad]

theorem pkcs7Pad_length_mod (d : List Nat) : (pkcs7Pad d).length % 16 = 0 := by
  rw [pkcs7Pad_length]
  omega

theorem pkcs7Pad_ne_nil (d : List Nat) : pkcs7Pad d ≠ [] := by
  intro h
  have := congrArg List.length h
  rw [pkcs7Pad_length] at this
  simp at this
  omega

theorem pkcs7Pad_bounds (d : List Nat) (hd : ∀ x ∈ d, x < 256) :
    ∀ x ∈ pkcs7Pad d, x < 256 := by
  intro x hx
  simp only [pkcs7Pad, List.mem_append, List.mem_replicate] at hx
  rcases hx with hx | ⟨-, hx⟩
  · exact hd x hx
  · omega

theorem pkcs7Unpad_eq_of_getLast (data : List Nat) (n : Nat)
    (h : data.getLast? = some n) :
    pkcs7Unpad data =
      if n = 0 ∨ 16 < n ∨ data.length < n then .error "bad decrypt"
      else if (data.drop (data.length - n)).all (· = n) then
        .ok (data.take (data.length - n))
      else .error "bad decrypt" := by
  rw [pkcs7Unpad, h]

theorem replicate_getLast? (n a : Nat) :
    (List.replicate (n + 1) a).getLast? = some a := by
  induction n with
  | zero => rfl
  | succ k ih =>
    rw [List.replicate_succ, List.replicate_succ, List.getLast?_cons_cons,
      ← List.replicate_succ]
    exact ih

theorem pkcs7Unpad_pad (d : List Nat) : pkcs7Unpad (pkcs7Pad d) = .ok d := by
  set p := 16 - d.length % 16 with hp
  have hp1 : 1 ≤ p := by omega
  have hp16 : p ≤ 16 := by omega
  have hpad : pkcs7Pad d = d ++ List.replicate p p := rfl
  have hlast : (d ++ List.replicate p p).getLast? = some p := by
    rw [List.getLast?_append_of_ne_nil d
      (by simp only [ne_eq, List.replicate_eq_nil_iff]; omega)]
    obtain ⟨q, hq⟩ : ∃ q, p = q + 1 := ⟨p - 1, by omega⟩
    rw [hq, replicate_getLast?]
  have hlen : (d ++ List.replicate p p).length = d.length + p := by simp
  rw [hpad, pkcs7Unpad_eq_of_getLast _ p hlast]
  have hcond : ¬(p = 0 ∨ 16 < p ∨ (d ++ List.replicate p p).length < p) := by
    rw [hlen]; omega
  rw [if_neg hcond]
  have hdroplen : (d ++ List.replicate p p).length - p = d.length := by rw [hlen]; omega
  rw [hdroplen]
  rw [List.drop_left d (List.replicate p p), List.take_left d (List.replicate p p)]
  have hall : (List.replicate p p).all (· = p) = true := by
    simp [List.all_eq_true, List.mem_replicate]
  rw [if_pos hall]

/-! ## Helper lemmas: block chunking -/

theorem chunk16_flatten (l : List Nat) : (chunk16 l).flatten = l := by
  induction l using chunk16.induct with
  | case1 => simp [chunk16]
  | case2 l hne ih =>
    rw [chunk16, if_neg hne]
    simp [ih]

theorem chunk16_blocks (l : List Nat) (hlen : l.length % 16 = 0)
    (hb : ∀ x ∈ l, x < 256) : ∀ b ∈ chunk16 l, ValidBlock b := by
  induction l using chunk16.induct with
  | case1 => simp [chunk16]
  | case2 l hne ih =>
    rw [chunk16, if_neg hne]
    intro b hbmem
    have hlpos : l.length ≠ 0 := by simpa [List.length_eq_zero] using hne
    have hl16 : 16 ≤ l.length := by omega
    rcases List.mem_cons.mp hbmem with hb1 | hb2
    · subst hb1
      constructor
      · simp [List.length_take]; omega
      · intro x hx
        exact hb x (List.mem_of_mem_take hx)
    · have hdlen : (l.drop 16).length % 16 = 0 := by
        simp [List.length_drop]; omega
      exact ih hdlen (fun x hx => hb x (List.mem_of_mem_drop hx)) b hb2

theorem chunk16_ne_nil (l : List Nat) (hne : l ≠ []) : chunk16 l ≠ [] := by
  rw [chunk16, if_neg hne]
  simp

theorem chunk16_flatten_blocks (blocks : List (List Nat))
    (hb : ∀ b ∈ blocks, b.length = 16) : chunk16 blocks.flatten = blocks := by
  induction blocks with
  | nil => simp [chunk16]
  | cons b rest ih =>
    have hblen : b.length = 16 := hb b (by simp)
    have hbne : (b :: rest).flatten ≠ [] := by
      simp only [List.flatten_cons]
      intro h
      have := congrArg List.length h
      simp [hblen] at this
    rw [chunk16, if_neg hbne]
    simp only [List.flatten_cons]
    rw [← hblen, List.take_left, List.drop_left]
    rw [ih (fun x hx => hb x (by simp [hx]))]

theorem flatten_blocks_length (blocks : List (List Nat))
    (hb : ∀ b ∈ blocks, b.length = 16) :
    blocks.flatten.length = 16 * blocks.length := by
  induction blocks with
  | nil => simp
  | cons b rest ih =>
    simp only [List.flatten_cons, List.length_append, List.length_cons]
    rw [hb b (by simp), ih (fun x hx => hb x (by simp [hx]))]
    ring

/-! ## Helper lemmas: XOR of blocks and CBC chaining -/

theorem xor_byte_lt (x y : Nat) (hx : x < 256) (hy : y < 256) : x ^^^ y < 256 := by
  have h8 : (256 : Nat) = 2 ^ 8 := by norm_num
  rw [h8] at hx hy ⊢
  exact Nat.xor_lt_two_pow hx hy

theorem xorBlock_mem_lt (a : List Nat) (ha : ∀ x ∈ a, x < 256) :
    ∀ (b : List Nat), (∀ x ∈ b, x < 256) →
    ∀ z ∈ List.zipWith (fun x y => x ^^^ y) a b, z < 256 := by
  induction a with
  | nil => simp
  | cons x rest ih =>
    intro b hb z hz
    cases b with
    | nil => simp at hz
    | cons y brest =>
      simp only [List.zipWith_cons_cons, List.mem_cons] at hz
      rcases hz with hz | hz
      · subst hz
        exact xor_byte_lt x y (ha x (by simp)) (hb y (by simp))
      · exact ih (fun u hu => ha u (by simp [hu])) brest
          (fun u hu => hb u (by simp [hu])) z hz

theorem xorBlock_valid (a b : List Nat) (ha : ValidBlock a) (hb : ValidBlock b) :
    ValidBlock (List.zipWith (fun x y => x ^^^ y) a b) := by
  obtain ⟨hal, hab⟩ := ha
  obtain ⟨hbl, hbb⟩ := hb
  exact ⟨by simp [List.length_zipWith, hal, hbl], xorBlock_mem_lt a hab b hbb⟩

theorem xorBlock_cancel (a b : List Nat) (hlen : a.length = b.length) :
    List.zipWith (fun x y => x ^^^ y) (List.zipWith (fun x y => x ^^^ y) a b) b = a := by
  induction a generalizing b with
  | nil => simp
  | cons x rest ih =>
    cases b with
    | nil => simp at hlen
    | cons y brest =>
      simp only [List.zipWith_cons_cons]
      rw [ih brest (by simpa using hlen)]
      congr 1
      rw [Nat.xor_assoc, Nat.xor_self, Nat.xor_zero]

theorem cbcEncrypt_length (enc : List Nat → List Nat) (prev : List Nat)
    (bs : List (List Nat)) : (cbcEncrypt enc prev bs).length = bs.length := by
  induction bs generalizing prev with
  | nil => rfl
  | cons b rest ih => simp only [cbcEncrypt, List.length_cons, ih]

theorem cbcEncrypt_valid (enc : List Nat → List Nat) (henc : BlockMapValid enc)
    (prev : List Nat) (hprev : ValidBlock prev) (bs : List (List Nat))
    (hbs : ∀ b ∈ bs, ValidBlock b) :
    ∀ c ∈ cbcEncrypt enc prev bs, ValidBlock c := by
  induction bs generalizing prev with
  | nil => simp [cbcEncrypt]
  | cons b rest ih =>
    intro c hc
    simp only [cbcEncrypt, List.mem_cons] at hc
    have hb : ValidBlock b := hbs b (by simp)
    have hx : ValidBlock (enc (List.zipWith (fun x y => x ^^^ y) b prev)) :=
      henc _ (xorBlock_valid b prev hb hprev)
    rcases hc with hc | hc
    · subst hc; exact hx
    · exact ih _ hx (fun x hxm => hbs x (by simp [hxm])) c hc

theorem cbc_roundtrip (enc dec : List Nat → List Nat)
    (henc : BlockMapValid enc) (hinv : BlockInverse enc dec)
    (prev : List Nat) (hprev : ValidBlock prev) (bs : List (List Nat))
    (hbs : ∀ b ∈ bs, ValidBlock b) :
    cbcDecrypt dec prev (cbcEncrypt enc prev bs) = bs := by
  induction bs generalizing prev with
  | nil => rfl
  | cons b rest ih =>
    have hb : ValidBlock b := hbs b (by simp)
    have hxv : ValidBlock (List.zipWith (fun x y => x ^^^ y) b prev) :=
      xorBlock_valid b prev hb hprev
    have hcv : ValidBlock (enc (List.zipWith (fun x y => x ^^^ y) b prev)) := henc _ hxv
    simp only [cbcEncrypt, cbcDecrypt]
    rw [hinv _ hxv]
    rw [xorBlock_cancel b prev (by rw [hb.1, hprev.1])]
    rw [ih _ hcv (fun x hxm => hbs x (by simp [hxm]))]

/-! ## Helper lemmas: envelope round trip -/

theorem decrypt_eq_two_parts (decB : List Nat → List Nat → List Nat)
    (encryptionKey env p0 p1 : List Char)
    (h : splitChars ':' env = [p0, p1]) :
    decrypt decB encryptionKey env =
      (if (cipherKey encryptionKey).length ≠ 32 then .error "Invalid key length"
       else if (nodeHexDecode p0).length ≠ 16 then
         .error "Invalid initialization vector"
       else if nodeHexDecode p1 = [] ∨ (nodeHexDecode p1).length % 16 ≠ 0 then
         .error "wrong final block length"
       else pkcs7Unpad (cbcDecrypt (decB (cipherKey encryptionKey))
         (nodeHexDecode p0) (chunk16 (nodeHexDecode p1))).flatten) := by
  rw [decrypt, h]

theorem decrypt_not_two_parts (decB : List Nat → List Nat → List Nat)
    (encryptionKey env : List Char)
    (h : (splitChars ':' env).length ≠ 2) :
    decrypt decB encryptionKey env = .error "Invalid encrypted data format" := by
  rw [decrypt]
  match hs : splitChars ':' env with
  | [] => rfl
  | [_] => rfl
  | [p0, p1] => rw [hs] at h; simp at h
  | _ :: _ :: _ :: _ => rfl

theorem encrypt_def (encB : List Nat → List Nat → List Nat)
    (encryptionKey : List Char) (iv pt : List Nat) :
    encrypt encB encryptionKey iv pt =
      hexEncode iv ++ ':' :: hexEncode
        (cbcEncrypt (encB (cipherKey encryptionKey)) iv
          (chunk16 (pkcs7Pad pt))).flatten := rfl

theorem ciphertext_blocks_valid (encB : List Nat → List Nat → List Nat)
    (key iv pt : List Nat) (hiv : ValidBlock iv) (hpt : ∀ x ∈ pt, x < 256)
    (henc : BlockMapValid (encB key)) :
    ∀ c ∈ cbcEncrypt (encB key) iv (chunk16 (pkcs7Pad pt)), ValidBlock c :=
  cbcEncrypt_valid (encB key) henc iv hiv _
    (chunk16_blocks _ (pkcs7Pad_length_mod pt) (pkcs7Pad_bounds pt hpt))

theorem ciphertext_bounds (blocks : List (List Nat))
    (hv : ∀ c ∈ blocks, ValidBlock c) : ∀ x ∈ blocks.flatten, x < 256 := by
  intro x hx
  rw [List.mem_flatten] at hx
  obtain ⟨b, hb1, hb2⟩ := hx
  exact (hv b hb1).2 x hb2

theorem decrypt_encrypt (encB decB : List Nat → List Nat → List Nat)
    (encryptionKey : List Char) (iv pt : List Nat)
    (hkey : (cipherKey encryptionKey).length = 32)
    (hiv : ValidBlock iv)
    (hpt : ∀ x ∈ pt, x < 256)
    (henc : BlockMapValid (encB (cipherKey encryptionKey)))
    (hinv : BlockInverse (encB (cipherKey encryptionKey))
      (decB (cipherKey encryptionKey))) :
    decrypt decB encryptionKey (encrypt encB encryptionKey iv pt) = .ok pt := by
  set key := cipherKey encryptionKey with hkeydef
  set blocks := chunk16 (pkcs7Pad pt) with hblocks
  set ctBlocks := cbcEncrypt (encB key) iv blocks with hctBlocks
  set ct := ctBlocks.flatten with hct
  have hblocksv : ∀ b ∈ blocks, ValidBlock b :=
    chunk16_blocks _ (pkcs7Pad_length_mod pt) (pkcs7Pad_bounds pt hpt)
  have hctv : ∀ c ∈ ctBlocks, ValidBlock c :=
    cbcEncrypt_valid (encB key) henc iv hiv blocks hblocksv
  have hctb : ∀ x ∈ ct, x < 256 := ciphertext_bounds ctBlocks hctv
  have hsplit : splitChars ':' (encrypt encB encryptionKey iv pt) =
      [hexEncode iv, hexEncode ct] := by
    rw [encrypt_def]
    exact splitChars_single ':' (hexEncode iv) (hexEncode ct)
      (colon_not_mem_hexEncode iv hiv.2) (colon_not_mem_hexEncode ct hctb)
  rw [decrypt_eq_two_parts decB encryptionKey _ _ _ hsplit]
  rw [nodeHexDecode_hexEncode iv hiv.2, nodeHexDecode_hexEncode ct hctb]
  rw [if_neg (by rw [← hkeydef, hkey]; simp)]
  rw [if_neg (by rw [hiv.1]; simp)]
  have hctlen : ct.length = 16 * ctBlocks.length := by
    rw [hct]
    exact flatten_blocks_length ctBlocks (fun b hb => (hctv b hb).1)
  have hblocksne : blocks ≠ [] := chunk16_ne_nil _ (pkcs7Pad_ne_nil pt)
  have hctBlocksne : ctBlocks.length ≠ 0 := by
    rw [hctBlocks, cbcEncrypt_length]
    intro h
    exact hblocksne (List.length_eq_zero.mp h)
  have hctne : ¬(ct = [] ∨ ct.length % 16 ≠ 0) := by
    push_neg
    constructor
    · intro h
      apply absurd hctBlocksne
      have hl := congrArg List.length h
      rw [hctlen] at hl
      simp only [List.length_nil] at hl
      simp
      omega
    · rw [hctlen]; omega
  rw [if_neg hctne]
  rw [chunk16_flatten_blocks ctBlocks (fun b hb => (hctv b hb).1)]
  rw [← hkeydef, hctBlocks,
    cbc_roundtrip (encB key) (decB key) henc hinv iv hiv blocks hblocksv]
  rw [hblocks, chunk16_flatten]
  exact pkcs7Unpad_pad pt

/-! ## Claim theorems -/

/-- **C1**: For every credential string `s` (represented throughout by its
UTF-8 byte sequence, which is what the cipher consumes and produces),
decrypting the envelope produced by encrypting `s` under the derived key
yields `s` again, and this holds for every choice of the random 16-byte
IV. `encB`/`decB` stand for the AES-256 forward and inverse block
permutations supplied by Node's crypto module, assumed to be mutually
inverse maps on valid 16-byte blocks. -/
theorem C1_decrypt_encrypt_roundtrip
    (encB decB : List Nat → List Nat → List Nat)
    (platform arch home : String) (iv : List Nat) (s : String)
    (hiv : ValidBlock iv)
    (henc : BlockMapValid
      (encB (cipherKey (generateEncryptionKey platform arch home))))
    (hinv : BlockInverse
      (encB (cipherKey (generateEncryptionKey platform arch home)))
      (decB (cipherKey (generateEncryptionKey platform arch home)))) :
    decrypt decB (generateEncryptionKey platform arch home)
      (encrypt encB (generateEncryptionKey platform arch home) iv (utf8Bytes s)) =
      Except.ok (utf8Bytes s) :=
  decrypt_encrypt encB decB _ iv _
    (cipherKey_generateEncryptionKey_length platform arch home)
    hiv (utf8Bytes_bounds s) henc hinv

/-- Witness for C1: the identity block permutation, the all-zero IV and
the credential `"sk-test"`. -/
theorem C1_roundtrip_witness :
    decrypt (fun _ b => b) (generateEncryptionKey "linux" "x64" "/home/u")
      (encrypt (fun _ b => b) (generateEncryptionKey "linux" "x64" "/home/u")
        (List.replicate 16 0) (utf8Bytes "sk-test")) =
      Except.ok (utf8Bytes "sk-test") :=
  C1_decrypt_encrypt_roundtrip (fun _ b => b) (fun _ b => b)
    "linux" "x64" "/home/u" (List.replicate 16 0) "sk-test"
    ⟨by decide, by decide⟩ (fun _ hb => hb) (fun _ _ => rfl)

/-- **C2**: the store's `getToken` never raises: for every state of the
token file (absent, unreadable, malformed, undecryptable or valid) it
either returns the stored credential or returns `none`; every exception
from reading or decrypting is caught inside the operation. -/
theorem C2_getToken_never_raises (decB : List Nat → List Nat → List Nat)
    (encryptionKey : List Char) (fs : FileState) :
    getToken decB encryptionKey fs = none ∨
    ∃ data token, fs = FileState.contains data ∧
      decrypt decB encryptionKey data = Except.ok token ∧ token ≠ [] ∧
      getToken decB encryptionKey fs = some token := by
  cases fs with
  | absent => exact Or.inl rfl
  | unreadable => exact Or.inl rfl
  | contains data =>
    cases hd : decrypt decB encryptionKey data with
    | error e => exact Or.inl (by simp [getToken, hd])
    | ok token =>
      by_cases ht : token = []
      · exact Or.inl (by simp [getToken, hd, ht])
      · exact Or.inr ⟨data, token, rfl, hd, ht, by simp [getToken, hd, ht]⟩

/-- **C3**: whenever the external-service call fails, its response has no
content (or empty content), or the content is unparsable as JSON,
`generateCommitSuggestions` returns exactly the fixed fallback set
`{types: ["feat","fix","chore"], scopes: [], messages: ["update code",
"improve functionality"]}` and never propagates the service error. -/
theorem C3_fallback_on_failure :
    (∀ (parseJson : String → Except String JsonVal) (msg : String),
      generateCommitSuggestions parseJson (.error msg) = fallbackSuggestions) ∧
    (∀ parseJson : String → Except String JsonVal,
      generateCommitSuggestions parseJson (.ok none) = fallbackSuggestions) ∧
    (∀ parseJson : String → Except String JsonVal,
      generateCommitSuggestions parseJson (.ok (some "")) = fallbackSuggestions) ∧
    (∀ (parseJson : String → Except String JsonVal) (content msg : String),
      parseJson content = .error msg →
      generateCommitSuggestions parseJson (.ok (some content)) =
        fallbackSuggestions) := by
  refine ⟨fun _ _ => rfl, fun _ => rfl, fun _ => rfl, fun p c m h => ?_⟩
  by_cases hc : c = ""
  · simp [generateCommitSuggestions, hc]
  · simp [generateCommitSuggestions, hc, h]

/-- Witness for C3: a parse function that always fails. -/
theorem C3_fallback_witness :
    generateCommitSuggestions (fun _ => Except.error "bad json")
      (Except.ok (some "not json")) = fallbackSuggestions :=
  C3_fallback_on_failure.2.2.2 (fun _ => Except.error "bad json")
    "not json" "bad json" rfl

/-- **C4 (amended)**: `decrypt` rejects any envelope that does not split
at the colon into exactly two fields; with two fields, each field is
hex-decoded leniently (Node's `Buffer.from(.., "hex")` stops at the first
invalid character), and `decrypt` rejects the envelope when the decoded
IV is not 16 bytes (which covers an empty first field) or the decoded
ciphertext is empty or not a multiple of the block size (which covers an
empty second field); any decryption failure stays inside the store:
`getToken` returns `none` rather than raising. Trailing non-hex
characters after a valid hex prefix of a field are ignored, not
rejected. -/
theorem C4_decrypt_rejects_malformed
    (decB : List Nat → List Nat → List Nat) (encryptionKey : List Char) :
    (∀ env, (splitChars ':' env).length ≠ 2 →
      decrypt decB encryptionKey env =
        Except.error "Invalid encrypted data format") ∧
    (∀ env p0 p1, splitChars ':' env = [p0, p1] →
      (cipherKey encryptionKey).length = 32 →
      (nodeHexDecode p0).length ≠ 16 →
      decrypt decB encryptionKey env =
        Except.error "Invalid initialization vector") ∧
    (∀ env p0 p1, splitChars ':' env = [p0, p1] →
      (cipherKey encryptionKey).length = 32 →
      (nodeHexDecode p0).length = 16 →
      (nodeHexDecode p1 = [] ∨ (nodeHexDecode p1).length % 16 ≠ 0) →
      decrypt decB encryptionKey env =
        Except.error "wrong final block length") ∧
    (∀ env msg, decrypt decB encryptionKey env = Except.error msg →
      getToken decB encryptionKey (FileState.contains env) = none) := by
  refine ⟨fun env h => decrypt_not_two_parts decB encryptionKey env h,
    fun env p0 p1 hs hk hiv => ?_, fun env p0 p1 hs hk hiv hct => ?_,
    fun env msg hd => by simp [getToken, hd]⟩
  · rw [decrypt_eq_two_parts decB encryptionKey env p0 p1 hs]
    rw [if_neg (by simp [hk]), if_pos hiv]
  · rw [decrypt_eq_two_parts decB encryptionKey env p0 p1 hs]
    rw [if_neg (by simp [hk]), if_neg (by simp [hiv]), if_pos hct]

/-- Witness for C4 (amended): a colon-free string is rejected with the
format error. -/
theorem C4_malformed_witness :
    decrypt (fun _ b => b) (List.replicate 64 '0') ['a', 'b'] =
      Except.error "Invalid encrypted data format" :=
  (C4_decrypt_rejects_malformed (fun _ b => b) (List.replicate 64 '0')).1
    ['a', 'b'] (by decide)

/-- Counterexample to C4 as stated: `garbageEnvelope`'s first field is
`"000...0zz"` — not a hex string — yet `decrypt` accepts the envelope
and returns the decryption (here, under the identity block permutation
and the all-zero derived key, the empty credential), because Node's hex
decoding silently stops at the first invalid character. -/
theorem C4_counterexample :
    decrypt (fun _ b => b) (List.replicate 64 '0') garbageEnvelope =
      Except.ok [] ∧
    (splitChars ':' garbageEnvelope).length = 2 ∧
    'z' ∈ hexEncode (List.replicate 16 0) ++ ['z', 'z'] ∧
    hexVal 'z' = none := by
  have hsplit : splitChars ':' garbageEnvelope =
      [hexEncode (List.replicate 16 0) ++ ['z', 'z'],
       hexEncode (List.replicate 16 16)] := by
    rw [show garbageEnvelope = (hexEncode (List.replicate 16 0) ++ ['z', 'z']) ++
      ':' :: hexEncode (List.replicate 16 16) from rfl]
    exact splitChars_single ':' _ _ (by decide) (by decide)
  refine ⟨?_, by rw [hsplit]; rfl, by decide, by decide⟩
  rw [decrypt_eq_two_parts _ _ _ _ _ hsplit]
  rw [if_neg (by decide), if_neg (by decide), if_neg (by decide)]
  have hchunk : chunk16 (nodeHexDecode (hexEncode (List.replicate 16 16))) =
      [List.replicate 16 16] := by
    rw [nodeHexDecode_hexEncode _ (by decide)]
    have h := chunk16_flatten_blocks [List.replicate 16 16] (by decide)
    simpa using h
  rw [hchunk]
  rfl

/-- **C5**: the formatting function is pure and total: it returns
`"<type>(<scope>): <emoji> <message>"` when the scope is non-empty and
`"<type>: <emoji> <message>"` when it is empty, with the emoji taken from
the fixed catalog and the empty string for an unknown type; in
particular the two concrete examples of the spec hold. -/
theorem C5_formatCommitMessage :
    (∀ type scope message : String, scope ≠ "" →
      formatCommitMessage type scope message =
        type ++ "(" ++ scope ++ ")" ++ ": " ++ emojiFor type ++ " " ++ message) ∧
    (∀ type message : String,
      formatCommitMessage type "" message =
        type ++ ": " ++ emojiFor type ++ " " ++ message) ∧
    (∀ type : String, COMMIT_TYPES.find? (fun t => t.type == type) = none →
      emojiFor type = "") ∧
    formatCommitMessage "feat" "auth" "implement OAuth2 login flow" =
      "feat(auth): ✨ implement OAuth2 login flow" ∧
    formatCommitMessage "docs" "" "add installation instructions" =
      "docs: 📚 add installation instructions" := by
  refine ⟨fun type scope message hs => ?_, fun type message => ?_,
    fun type hf => ?_, by rfl, by rfl⟩
  · rw [formatCommitMessage, emojiFor, if_pos hs]
    simp [String.append_assoc]
  · rw [formatCommitMessage, emojiFor]
    simp
  · rw [emojiFor, hf]
    rfl

/-- Witness for C5: a non-empty scope and an unknown type. -/
theorem C5_format_witness :
    formatCommitMessage "perf" "core" "speed up parsing" =
      "perf" ++ "(" ++ "core" ++ ")" ++ ": " ++ emojiFor "perf" ++ " " ++
        "speed up parsing" ∧
    emojiFor "unknown" = "" :=
  ⟨C5_formatCommitMessage.1 "perf" "core" "speed up parsing" (by decide),
   C5_formatCommitMessage.2.2.1 "unknown" rfl⟩

/-- **C6**: key derivation is the pure function
`key = SHA-256(platform || arch || home)`: the 32 raw bytes of the digest
are exactly the bytes handed to the cipher (`Buffer.from(hexDigest,
"hex")` inverts the hex encoding), the key length is 32 bytes, no salt or
stretching is applied, and identical inputs yield byte-identical keys. -/
theorem C6_key_derivation (platform arch home : String) :
    cipherKey (generateEncryptionKey platform arch home) =
      sha256 (utf8Bytes (platform ++ arch ++ home)) ∧
    (cipherKey (generateEncryptionKey platform arch home)).length = 32 ∧
    ∀ p2 a2 h2 : String, platform = p2 → arch = a2 → home = h2 →
      generateEncryptionKey platform arch home =
        generateEncryptionKey p2 a2 h2 := by
  refine ⟨cipherKey_generateEncryptionKey platform arch home,
    cipherKey_generateEncryptionKey_length platform arch home,
    fun p2 a2 h2 hp ha hh => ?_⟩
  rw [hp, ha, hh]

/-- Witness for C6 at a concrete machine identity. -/
theorem C6_key_witness :
    (cipherKey (generateEncryptionKey "linux" "x64" "/root")).length = 32 ∧
    generateEncryptionKey "linux" "x64" "/root" =
      generateEncryptionKey "linux" "x64" "/root" :=
  ⟨(C6_key_derivation "linux" "x64" "/root").2.1,
   (C6_key_derivation "linux" "x64" "/root").2.2 "linux" "x64" "/root"
     rfl rfl rfl⟩

/-- **C7 (amended)**: for every service response whose content parses to
a JSON object, the suggestion result has all three lists present — each
of `types`, `scopes` and `messages` defaults to the empty array when its
key is missing from the parsed object — but a present, truthy value is
passed through without any runtime validation, so the returned lists
contain only strings only when the service honoured the requested
schema. -/
theorem C7_defaults_no_validation
    (parseJson : String → Except String JsonVal) (content : String)
    (fields : List (String × JsonVal)) (hc : content ≠ "")
    (hp : parseJson content = .ok (.obj fields)) :
    ((fields.lookup "types" = none →
      (generateCommitSuggestions parseJson (.ok (some content))).suggestedTypes =
        JsonVal.arr []) ∧
     (fields.lookup "scopes" = none →
      (generateCommitSuggestions parseJson (.ok (some content))).suggestedScopes =
        JsonVal.arr []) ∧
     (fields.lookup "messages" = none →
      (generateCommitSuggestions parseJson (.ok (some content))).commitMessages =
        JsonVal.arr [])) ∧
    ∀ v, fields.lookup "types" = some v → jsTruthy v →
      (generateCommitSuggestions parseJson (.ok (some content))).suggestedTypes =
        v := by
  have hg : generateCommitSuggestions parseJson (.ok (some content)) =
      ⟨jsOrEmptyList (fields.lookup "types"),
       jsOrEmptyList (fields.lookup "scopes"),
       jsOrEmptyList (fields.lookup "messages")⟩ := by
    rw [generateCommitSuggestions, if_neg hc, hp]
    rfl
  refine ⟨⟨fun h => ?_, fun h => ?_, fun h => ?_⟩, fun v hv htr => ?_⟩ <;>
    rw [hg]
  · rw [h]; rfl
  · rw [h]; rfl
  · rw [h]; rfl
  · show jsOrEmptyList (fields.lookup "types") = v
    rw [hv, jsOrEmptyList, if_pos htr]

/-- Witness for C7 (amended): an object missing every key defaults all
three lists to the empty array. -/
theorem C7_defaults_witness :
    (generateCommitSuggestions (fun _ => Except.ok (JsonVal.obj []))
      (Except.ok (some "\x7b\x7d"))).suggestedTypes = JsonVal.arr [] :=
  (C7_defaults_no_validation (fun _ => Except.ok (JsonVal.obj []))
    "{}" [] (by decide) rfl).1.1 rfl

/-- Counterexample to C7 as stated: the structurally valid JSON response
`{"types":[42],"scopes":[],"messages":[]}` yields a `types` list whose
element is the number `42`, not a string — the code performs no runtime
validation of the array elements. -/
theorem C7_counterexample :
    (generateCommitSuggestions
      (fun _ => Except.ok (JsonVal.obj
        [("types", JsonVal.arr [JsonVal.num 42]),
         ("scopes", JsonVal.arr []),
         ("messages", JsonVal.arr [])]))
      (Except.ok (some "\x7b\"types\":[42],\"scopes\":[],\"messages\":[]\x7d"))).suggestedTypes =
      JsonVal.arr [JsonVal.num 42] ∧
    isStringVal (JsonVal.num 42) = false := by
  constructor
  · rfl
  · rfl

/-- **C8**: whenever both the staged and the unstaged diff are blank
(empty after trimming), the workflow run terminates with exit status 0
and neither the suggestion pipeline nor the commit step is ever
invoked. -/
theorem C8_empty_diff_exits_zero (staged unstaged : List Char) (confirm : Bool)
    (hs : jsTrim staged = []) (hu : jsTrim unstaged = []) :
    generateCommit staged unstaged confirm = [WorkflowEvent.exited 0] ∧
    WorkflowEvent.suggestInvoked ∉ generateCommit staged unstaged confirm ∧
    WorkflowEvent.commitInvoked ∉ generateCommit staged unstaged confirm := by
  have hgd : getGitDiff staged unstaged = .error 0 := by
    rw [getGitDiff]
    simp [hs, hu]
  have hg : generateCommit staged unstaged confirm = [WorkflowEvent.exited 0] := by
    rw [generateCommit, hgd]
  exact ⟨hg, by rw [hg]; simp, by rw [hg]; simp⟩

/-- Witness for C8: literally empty diffs. -/
theorem C8_empty_diff_witness :
    generateCommit [] [] true = [WorkflowEvent.exited 0] ∧
    WorkflowEvent.suggestInvoked ∉ generateCommit [] [] true ∧
    WorkflowEvent.commitInvoked ∉ generateCommit [] [] true :=
  C8_empty_diff_exits_zero [] [] true rfl rfl

/-- **C9**: a stored empty credential is indistinguishable from no
credential: after `setToken("")`, `getToken` returns `none` (the
decrypted empty string is coerced to `null` by `token || null`) and
`hasToken` returns `false`. -/
theorem C9_empty_token_reads_absent
    (encB decB : List Nat → List Nat → List Nat)
    (platform arch home : String) (iv : List Nat)
    (hiv : ValidBlock iv)
    (henc : BlockMapValid
      (encB (cipherKey (generateEncryptionKey platform arch home))))
    (hinv : BlockInverse
      (encB (cipherKey (generateEncryptionKey platform arch home)))
      (decB (cipherKey (generateEncryptionKey platform arch home)))) :
    getToken decB (generateEncryptionKey platform arch home)
      (setTokenFile encB (generateEncryptionKey platform arch home) iv
        (utf8Bytes "")) = none ∧
    hasToken decB (generateEncryptionKey platform arch home)
      (setTokenFile encB (generateEncryptionKey platform arch home) iv
        (utf8Bytes "")) = false := by
  have hd : decrypt decB (generateEncryptionKey platform arch home)
      (encrypt encB (generateEncryptionKey platform arch home) iv
        (utf8Bytes "")) = Except.ok (utf8Bytes "") :=
    decrypt_encrypt encB decB _ iv _
      (cipherKey_generateEncryptionKey_length platform arch home)
      hiv (utf8Bytes_bounds "") henc hinv
  have hget : getToken decB (generateEncryptionKey platform arch home)
      (setTokenFile encB (generateEncryptionKey platform arch home) iv
        (utf8Bytes "")) = none := by
    rw [setTokenFile]
    simp only [getToken]
    rw [hd]
    rfl
  exact ⟨hget, by rw [hasToken, hget]; rfl⟩

/-- Witness for C9: identity block permutation, all-zero IV. -/
theorem C9_empty_token_witness :
    getToken (fun _ b => b) (generateEncryptionKey "linux" "x64" "/home/u")
      (setTokenFile (fun _ b => b) (generateEncryptionKey "linux" "x64" "/home/u")
        (List.replicate 16 0) (utf8Bytes "")) = none :=
  (C9_empty_token_reads_absent (fun _ b => b) (fun _ b => b)
    "linux" "x64" "/home/u" (List.replicate 16 0)
    ⟨by decide, by decide⟩ (fun _ hb => hb) (fun _ _ => rfl)).1

/-- **C10**: every envelope produced by `encrypt` is well-formed for
`decrypt`: it contains exactly one colon, splits into exactly two fields
(so `decrypt`'s format check passes), the first field is 32 hex
characters decoding to the 16-byte IV, and the second is a non-empty hex
string of at least 32 characters (PKCS#7 padding always yields at least
one full ciphertext block). -/
theorem C10_encrypt_wellformed
    (encB : List Nat → List Nat → List Nat) (encryptionKey : List Char)
    (iv pt : List Nat) (hiv : ValidBlock iv) (hpt : ∀ x ∈ pt, x < 256)
    (henc : BlockMapValid (encB (cipherKey encryptionKey))) :
    (encrypt encB encryptionKey iv pt).count ':' = 1 ∧
    (splitChars ':' (encrypt encB encryptionKey iv pt)).length = 2 ∧
    ∃ ctHex, splitChars ':' (encrypt encB encryptionKey iv pt) =
        [hexEncode iv, ctHex] ∧
      (hexEncode iv).length = 32 ∧
      nodeHexDecode (hexEncode iv) = iv ∧ iv.length = 16 ∧
      (∀ c ∈ hexEncode iv, (hexVal c).isSome) ∧
      ctHex ≠ [] ∧ 32 ≤ ctHex.length ∧ (∀ c ∈ ctHex, (hexVal c).isSome) := by
  set key := cipherKey encryptionKey with hkeydef
  set blocks := chunk16 (pkcs7Pad pt) with hblocks
  set ctBlocks := cbcEncrypt (encB key) iv blocks with hctBlocks
  set ct := ctBlocks.flatten with hct
  have hctv : ∀ c ∈ ctBlocks, ValidBlock c :=
    ciphertext_blocks_valid encB key iv pt hiv hpt henc
  have hctb : ∀ x ∈ ct, x < 256 := ciphertext_bounds ctBlocks hctv
  have hivc : ':' ∉ hexEncode iv := colon_not_mem_hexEncode iv hiv.2
  have hctc : ':' ∉ hexEncode ct := colon_not_mem_hexEncode ct hctb
  have hsplit : splitChars ':' (encrypt encB encryptionKey iv pt) =
      [hexEncode iv, hexEncode ct] := by
    rw [encrypt_def]
    exact splitChars_single ':' (hexEncode iv) (hexEncode ct) hivc hctc
  have hctlen : ct.length = 16 * ctBlocks.length := by
    rw [hct]
    exact flatten_blocks_length ctBlocks (fun b hb => (hctv b hb).1)
  have hblocksne : blocks ≠ [] := chunk16_ne_nil _ (pkcs7Pad_ne_nil pt)
  have hctBlockslen : 1 ≤ ctBlocks.length := by
    rw [hctBlocks, cbcEncrypt_length]
    rcases Nat.eq_zero_or_pos blocks.length with h | h
    · exact absurd (List.length_eq_zero.mp h) hblocksne
    · omega
  have hctlen32 : 32 ≤ (hexEncode ct).length := by
    rw [hexEncode_length, hctlen]
    omega
  refine ⟨?_, by rw [hsplit]; rfl,
    hexEncode ct, hsplit, by rw [hexEncode_length, hiv.1],
    nodeHexDecode_hexEncode iv hiv.2, hiv.1,
    hexEncode_all_hex iv hiv.2, ?_, hctlen32, hexEncode_all_hex ct hctb⟩
  · rw [encrypt_def]
    rw [List.count_append]
    rw [List.count_eq_zero.mpr hivc, List.count_cons]
    rw [List.count_eq_zero.mpr hctc]
    rfl
  · intro h
    rw [h] at hctlen32
    simp at hctlen32

/-- Witness for C10: identity block permutation, all-zero IV, two-byte
plaintext. -/
theorem C10_encrypt_witness :
    (encrypt (fun _ b => b) (List.replicate 64 '0') (List.replicate 16 0)
      [104, 105]).count ':' = 1 ∧
    (splitChars ':' (encrypt (fun _ b => b) (List.replicate 64 '0')
      (List.replicate 16 0) [104, 105])).length = 2 :=
  ⟨(C10_encrypt_wellformed (fun _ b => b) (List.replicate 64 '0')
      (List.replicate 16 0) [104, 105] ⟨by decide, by decide⟩ (by decide)
      (fun _ hb => hb)).1,
   (C10_encrypt_wellformed (fun _ b => b) (List.replicate 64 '0')
      (List.replicate 16 0) [104, 105] ⟨by decide, by decide⟩ (by decide)
      (fun _ hb => hb)).2.1⟩
